import Mathlib

/-!
Verification of `evalrs` (src/src/main.rs), a Rust code snippet evaluator.

The snippet-to-project transformation consists of two pure text functions,
`make_manifest` and `make_source_code` (src/src/main.rs lines 208-240), both
built on the regular expression `extern\s+crate\s+([a-z0-9_]+)\s*;` and the
anchored check `^fn main\(\)`.  We embed the text transformations over
`List Char`, with an explicit, executable matcher for the dependency regex
and a leftmost, non-overlapping scan standing for the regex engine's
`captures_iter` / `replace_all` iteration.  The driver glue (child process
invocation, exit-code propagation, the build-artifact cache dance of `main`,
lines 137-206) is embedded as small explicit models.
-/

set_option autoImplicit false

namespace Evalrs

/-- ASCII whitespace, the characters the regex class `\s` can match in the
inputs we consider. -/
def rsSpace (c : Char) : Bool :=
  c = ' ' || c = '\t' || c = '\n' || c = '\r' || c = '\x0b' || c = '\x0c'

/-- The regex character class `[a-z0-9_]` used for the crate-name capture. -/
def identChar (c : Char) : Bool :=
  ('a' ≤ c && c ≤ 'z') || ('0' ≤ c && c ≤ '9') || c = '_'

/-- Matching a literal: `stripLit l s` returns the remainder of `s` after the
prefix `l`, or `none` when `l` is not a prefix of `s`. -/
def stripLit : List Char → List Char → Option (List Char)
  | [], s => some s
  | _ :: _, [] => none
  | l :: ls, c :: cs => if c = l then stripLit ls cs else none

/-- The literal `extern` of the dependency regex. -/
def externLit : List Char := ['e', 'x', 't', 'e', 'r', 'n']

/-- The literal `crate` of the dependency regex. -/
def crateLit : List Char := ['c', 'r', 'a', 't', 'e']

/-- A successful match of `extern\s+crate\s+([a-z0-9_]+)\s*;` at the start of
a text: the two mandatory whitespace runs, the captured crate name, the
optional whitespace before `;`, and the text remaining after the match. -/
structure DepMatch where
  ws1 : List Char
  ws2 : List Char
  name : List Char
  ws3 : List Char
  rest : List Char
deriving DecidableEq

/-- The full text consumed by a dependency-declaration match. -/
def DepMatch.matched (d : DepMatch) : List Char :=
  externLit ++ d.ws1 ++ crateLit ++ d.ws2 ++ d.name ++ d.ws3 ++ [';']

/-- Well-formedness of the pieces of a dependency-declaration match, exactly
what the regex quantifiers demand. -/
def DepMatch.WF (d : DepMatch) : Prop :=
  d.ws1 ≠ [] ∧ (∀ c ∈ d.ws1, rsSpace c = true) ∧
  d.ws2 ≠ [] ∧ (∀ c ∈ d.ws2, rsSpace c = true) ∧
  d.name ≠ [] ∧ (∀ c ∈ d.name, identChar c = true) ∧
  (∀ c ∈ d.ws3, rsSpace c = true)

/-- The matcher for `extern\s+crate\s+([a-z0-9_]+)\s*;` anchored at the start
of `s`.  All quantifiers are maximal-munch, which is exact here because each
character class is disjoint from the first character the rest of the pattern
can require. -/
def matchExternCrateAt (s : List Char) : Option DepMatch :=
  match stripLit externLit s with
  | none => none
  | some r1 =>
    if r1.takeWhile rsSpace = [] then none else
    match stripLit crateLit (r1.dropWhile rsSpace) with
    | none => none
    | some r2 =>
      if r2.takeWhile rsSpace = [] then none else
      if (r2.dropWhile rsSpace).takeWhile identChar = [] then none else
      match ((r2.dropWhile rsSpace).dropWhile identChar).dropWhile rsSpace with
      | [] => none
      | c :: r5 =>
        if c = ';' then
          some ⟨r1.takeWhile rsSpace, r2.takeWhile rsSpace,
                (r2.dropWhile rsSpace).takeWhile identChar,
                ((r2.dropWhile rsSpace).dropWhile identChar).takeWhile rsSpace, r5⟩
        else none

theorem stripLit_eq_some : ∀ {l s r : List Char}, stripLit l s = some r ↔ s = l ++ r := by
  intro l
  induction l with
  | nil => intro s r; simp [stripLit]
  | cons a ls ih =>
    intro s r
    cases s with
    | nil => simp [stripLit]
    | cons c cs =>
      by_cases h : c = a
      · simp [stripLit, h, ih]
      · simp [stripLit, h, Ne.symm h]

theorem stripLit_append (l r : List Char) : stripLit l (l ++ r) = some r :=
  stripLit_eq_some.mpr rfl

theorem mem_takeWhile_sat {p : Char → Bool} :
    ∀ {s : List Char}, ∀ c ∈ s.takeWhile p, p c = true := by
  intro s
  induction s with
  | nil => intro c hc; simp [List.takeWhile] at hc
  | cons a t ih =>
    intro c hc
    by_cases hp : p a
    · rw [List.takeWhile_cons_of_pos hp] at hc
      rcases List.mem_cons.mp hc with rfl | hc
      · exact hp
      · exact ih c hc
    · rw [List.takeWhile_cons_of_neg hp] at hc
      simp at hc

theorem takeWhile_append_of_head {p : Char → Bool} :
    ∀ {a b : List Char}, (∀ c ∈ a, p c = true) →
      (∀ c, b.head? = some c → p c = false) →
      (a ++ b).takeWhile p = a ∧ (a ++ b).dropWhile p = b := by
  intro a
  induction a with
  | nil =>
    intro b _ hb
    cases b with
    | nil => simp
    | cons c t =>
      have hc : p c = false := hb c rfl
      simp [List.takeWhile_cons, List.dropWhile_cons, hc]
  | cons x a' ih =>
    intro b ha hb
    have hx : p x = true := ha x (List.mem_cons_self x a')
    have ha' : ∀ c ∈ a', p c = true := fun c hc => ha c (List.mem_cons_of_mem x hc)
    have := ih ha' hb
    simp [List.takeWhile_cons, List.dropWhile_cons, hx, this.1, this.2]

theorem space_not_ident {c : Char} (h : rsSpace c = true) : identChar c = false := by
  have h' : ((((c = ' ' ∨ c = '\t') ∨ c = '\n') ∨ c = '\r') ∨ c = '\x0b') ∨ c = '\x0c' := by
    simpa [rsSpace] using h
  rcases h' with ((((rfl | rfl) | rfl) | rfl) | rfl) | rfl <;> decide

theorem ident_not_space {c : Char} (h : identChar c = true) : rsSpace c = false := by
  cases hr : rsSpace c
  · rfl
  · exact absurd h (by simp [space_not_ident hr])

/-- A successful anchored match decomposes the text into the matched
declaration followed by the rest, and its pieces satisfy the regex's
quantifiers. -/
theorem matchAt_decomp {s : List Char} {d : DepMatch} (h : matchExternCrateAt s = some d) :
    s = d.matched ++ d.rest ∧ d.WF := by
  unfold matchExternCrateAt at h
  split at h
  · exact absurd h (by simp)
  next r1 h1 =>
    split at h
    · exact absurd h (by simp)
    next hw1 =>
      split at h
      · exact absurd h (by simp)
      next r2 h2 =>
        split at h
        · exact absurd h (by simp)
        next hw2 =>
          split at h
          · exact absurd h (by simp)
          next hname =>
            split at h
            · exact absurd h (by simp)
            next c r5 h5 =>
              split at h
              next hc =>
                subst hc
                injection h with h
                subst h
                constructor
                · have s1 : s = externLit ++ r1 := stripLit_eq_some.mp h1
                  have s3 : List.dropWhile rsSpace r1 = crateLit ++ r2 :=
                    stripLit_eq_some.mp h2
                  symm
                  simp only [DepMatch.matched, List.append_assoc, List.cons_append,
                    List.nil_append]
                  rw [← h5, List.takeWhile_append_dropWhile,
                    List.takeWhile_append_dropWhile, List.takeWhile_append_dropWhile,
                    ← s3, List.takeWhile_append_dropWhile, ← s1]
                · refine ⟨hw1, fun c hc => mem_takeWhile_sat c hc,
                    hw2, fun c hc => mem_takeWhile_sat c hc,
                    hname, fun c hc => mem_takeWhile_sat c hc,
                    fun c hc => mem_takeWhile_sat c hc⟩
              next => exact absurd h (by simp)

/-- Completeness of the anchored matcher: a well-formed declaration followed
by any tail is matched, consuming exactly the declaration. -/
theorem matchAt_build {ws1 ws2 name ws3 t : List Char}
    (h1 : ws1 ≠ []) (hs1 : ∀ c ∈ ws1, rsSpace c = true)
    (h2 : ws2 ≠ []) (hs2 : ∀ c ∈ ws2, rsSpace c = true)
    (h3 : name ≠ []) (hn : ∀ c ∈ name, identChar c = true)
    (hs3 : ∀ c ∈ ws3, rsSpace c = true) :
    matchExternCrateAt (externLit ++ ws1 ++ crateLit ++ ws2 ++ name ++ ws3 ++ ';' :: t)
      = some ⟨ws1, ws2, name, ws3, t⟩ := by
  obtain ⟨n0, name', rfl⟩ := List.exists_cons_of_ne_nil h3
  have e0 : externLit ++ ws1 ++ crateLit ++ ws2 ++ (n0 :: name') ++ ws3 ++ ';' :: t
      = externLit ++ (ws1 ++ (crateLit ++ (ws2 ++ ((n0 :: name') ++ (ws3 ++ ';' :: t))))) := by
    simp [List.append_assoc]
  rw [e0]
  have e1 := stripLit_append externLit
    (ws1 ++ (crateLit ++ (ws2 ++ ((n0 :: name') ++ (ws3 ++ ';' :: t)))))
  have hb1 : ∀ c, (crateLit ++ (ws2 ++ ((n0 :: name') ++ (ws3 ++ ';' :: t)))).head? = some c →
      rsSpace c = false := by
    intro c hc
    simp [crateLit] at hc
    subst hc
    decide
  have e2 := takeWhile_append_of_head hs1 hb1
  have e3 := stripLit_append crateLit (ws2 ++ ((n0 :: name') ++ (ws3 ++ ';' :: t)))
  have hb2 : ∀ c, ((n0 :: name') ++ (ws3 ++ ';' :: t)).head? = some c →
      rsSpace c = false := by
    intro c hc
    simp at hc
    subst hc
    exact ident_not_space (hn n0 (List.mem_cons_self n0 name'))
  have e4 := takeWhile_append_of_head hs2 hb2
  have hb3 : ∀ c, (ws3 ++ ';' :: t).head? = some c → identChar c = false := by
    cases ws3 with
    | nil =>
      intro c hc
      simp at hc
      subst hc
      decide
    | cons w ws =>
      intro c hc
      simp at hc
      subst hc
      exact space_not_ident (hs3 w (List.mem_cons_self w ws))
  have e5 := takeWhile_append_of_head hn hb3
  have hb4 : ∀ c, (';' :: t : List Char).head? = some c → rsSpace c = false := by
    intro c hc
    simp at hc
    subst hc
    decide
  have e6 := takeWhile_append_of_head hs3 hb4
  simp only [matchExternCrateAt, e1, e2.1, e2.2, e3, e4.1, e4.2, e5.1, e5.2, e6.1, e6.2]
  simp [h1, h2]

/-- A well-formed match, re-run on exactly its own matched text, matches the
whole of it. -/
theorem matchAt_matched {d : DepMatch} (h : d.WF) :
    matchExternCrateAt d.matched = some ⟨d.ws1, d.ws2, d.name, d.ws3, []⟩ := by
  obtain ⟨h1, hs1, h2, hs2, h3, hn, hs3⟩ := h
  simpa [DepMatch.matched] using
    matchAt_build (t := []) h1 hs1 h2 hs2 h3 hn hs3

/-- The rest of a successful match is strictly shorter than the input, since
the matched declaration is nonempty. -/
theorem matchAt_rest_lt {s : List Char} {d : DepMatch} (h : matchExternCrateAt s = some d) :
    d.rest.length < s.length := by
  obtain ⟨hs, -⟩ := matchAt_decomp h
  rw [hs]
  simp [DepMatch.matched, externLit]
  omega

/-- Concatenation of a list of texts (Rust's `collect::<String>()`). -/
def concatAll : List (List Char) → List Char
  | [] => []
  | l :: ls => l ++ concatAll ls

/-- The text covered by one token of the scan. -/
def tokText : Char ⊕ DepMatch → List Char
  | Sum.inl c => [c]
  | Sum.inr d => d.matched

/-- Fuel-indexed leftmost, non-overlapping scan of the dependency regex over
the input: at each position, either the anchored matcher succeeds and the
scan continues after the matched text, or one literal character is emitted
and the scan advances by one.  Each step consumes at least one character, so
`fuel = s.length` is always enough. -/
def depTokensF : Nat → List Char → List (Char ⊕ DepMatch)
  | 0, _ => []
  | _ + 1, [] => []
  | fuel + 1, c :: cs =>
    match matchExternCrateAt (c :: cs) with
    | some d => Sum.inr d :: depTokensF fuel d.rest
    | none => Sum.inl c :: depTokensF fuel cs

/-- The scan of `extern\s+crate\s+([a-z0-9_]+)\s*;` over the whole input:
the iteration underlying both `captures_iter` and `replace_all`. -/
def depTokens (s : List Char) : List (Char ⊕ DepMatch) := depTokensF s.length s

theorem depTokensF_congr :
    ∀ (n f1 f2 : Nat) (s : List Char), s.length ≤ n → s.length ≤ f1 → s.length ≤ f2 →
      depTokensF f1 s = depTokensF f2 s := by
  intro n
  induction n with
  | zero =>
    intro f1 f2 s hn _ _
    have hs : s = [] := List.eq_nil_of_length_eq_zero (Nat.le_zero.mp hn)
    subst hs
    cases f1 <;> cases f2 <;> simp [depTokensF]
  | succ n ih =>
    intro f1 f2 s hn h1 h2
    cases s with
    | nil => cases f1 <;> cases f2 <;> simp [depTokensF]
    | cons c cs =>
      cases f1 with
      | zero => simp at h1
      | succ g1 =>
        cases f2 with
        | zero => simp at h2
        | succ g2 =>
          simp only [List.length_cons] at hn h1 h2
          cases hm : matchExternCrateAt (c :: cs) with
          | some d =>
            have hr := matchAt_rest_lt hm
            simp only [List.length_cons] at hr
            simp only [depTokensF, hm]
            congr 1
            exact ih g1 g2 d.rest (by omega) (by omega) (by omega)
          | none =>
            simp only [depTokensF, hm]
            congr 1
            exact ih g1 g2 cs (by omega) (by omega) (by omega)

theorem depTokens_cons_match {c : Char} {cs : List Char} {d : DepMatch}
    (h : matchExternCrateAt (c :: cs) = some d) :
    depTokens (c :: cs) = Sum.inr d :: depTokens d.rest := by
  have hr := matchAt_rest_lt h
  simp only [List.length_cons] at hr
  simp only [depTokens, List.length_cons, depTokensF, h]
  congr 1
  exact depTokensF_congr cs.length cs.length d.rest.length d.rest (by omega) (by omega)
    le_rfl

theorem depTokens_cons_nomatch {c : Char} {cs : List Char}
    (h : matchExternCrateAt (c :: cs) = none) :
    depTokens (c :: cs) = Sum.inl c :: depTokens cs := by
  simp only [depTokens, List.length_cons, depTokensF, h]

/-- Reconstruction: the scan's tokens tile the input exactly — matched
declarations and literal characters, in order, concatenate back to the
input. -/
theorem depTokens_tile (s : List Char) : concatAll ((depTokens s).map tokText) = s := by
  have key : ∀ (n : Nat) (s : List Char), s.length ≤ n →
      concatAll ((depTokens s).map tokText) = s := by
    intro n
    induction n with
    | zero =>
      intro s hn
      have hs : s = [] := List.eq_nil_of_length_eq_zero (Nat.le_zero.mp hn)
      subst hs
      simp [depTokens, depTokensF, concatAll]
    | succ n ih =>
      intro s hn
      cases s with
      | nil => simp [depTokens, depTokensF, concatAll]
      | cons c cs =>
        simp only [List.length_cons] at hn
        cases hm : matchExternCrateAt (c :: cs) with
        | some d =>
          obtain ⟨hdec, -⟩ := matchAt_decomp hm
          have hr := matchAt_rest_lt hm
          simp only [List.length_cons] at hr
          rw [depTokens_cons_match hm]
          simp only [List.map_cons, concatAll, tokText]
          rw [ih d.rest (by omega)]
          exact hdec.symm
        | none =>
          rw [depTokens_cons_nomatch hm]
          simp only [List.map_cons, concatAll, tokText]
          rw [ih cs (by omega)]
          simp
  exact key s.length s le_rfl

/-- Every match token produced by the scan is well-formed. -/
theorem depTokens_sound {s : List Char} {d : DepMatch}
    (hd : Sum.inr d ∈ depTokens s) : d.WF := by
  have key : ∀ (n : Nat) (s : List Char), s.length ≤ n →
      ∀ d : DepMatch, Sum.inr d ∈ depTokens s → d.WF := by
    intro n
    induction n with
    | zero =>
      intro s hn d hd
      have hs : s = [] := List.eq_nil_of_length_eq_zero (Nat.le_zero.mp hn)
      subst hs
      simp [depTokens, depTokensF] at hd
    | succ n ih =>
      intro s hn d hd
      cases s with
      | nil => simp [depTokens, depTokensF] at hd
      | cons c cs =>
        simp only [List.length_cons] at hn
        cases hm : matchExternCrateAt (c :: cs) with
        | some d0 =>
          have hr := matchAt_rest_lt hm
          simp only [List.length_cons] at hr
          rw [depTokens_cons_match hm] at hd
          rcases List.mem_cons.mp hd with heq | hmem
          · obtain ⟨-, hwf⟩ := matchAt_decomp hm
            injection heq with heq
            exact heq ▸ hwf
          · exact ih d0.rest (by omega) d hmem
        | none =>
          rw [depTokens_cons_nomatch hm] at hd
          rcases List.mem_cons.mp hd with heq | hmem
          · exact absurd heq (by simp)
          · exact ih cs (by omega) d hmem
  exact key s.length s le_rfl d hd

/-- The crate-name capture of a match token. -/
def capOf : Char ⊕ DepMatch → Option (List Char)
  | Sum.inl _ => none
  | Sum.inr d => some d.name

/-- The whole matched text of a match token. -/
def matchedOf : Char ⊕ DepMatch → Option (List Char)
  | Sum.inl _ => none
  | Sum.inr d => some d.matched

/-- The text a token contributes after `replace_all` with the empty string:
literal characters stay, matches vanish. -/
def litOf : Char ⊕ DepMatch → List Char
  | Sum.inl c => [c]
  | Sum.inr _ => []

/-- The crate-name captures of `re.captures_iter(input)`, in match order. -/
def depCaps (s : List Char) : List (List Char) := (depTokens s).filterMap capOf

/-- The whole matched texts of `re.captures_iter(input)`, in match order
(`make_source_code` captures the whole declaration as group 1). -/
def depMatches (s : List Char) : List (List Char) := (depTokens s).filterMap matchedOf

/-- `re.replace_all(input, "")`: the input with every match removed and all
other characters kept in order. -/
def removeDeps (s : List Char) : List Char := concatAll ((depTokens s).map litOf)

/-- Embedding of `make_manifest` (src/src/main.rs lines 208-222): one
`name = "*"` line per `captures_iter` match, spliced into the fixed
`[package]` header. -/
def make_manifest (input : List Char) : List Char :=
  let dependencies :=
    concatAll ((depCaps input).map (fun nm => nm ++ (" = \"*\"\n").toList))
  ("\n[package]\nname = \"evalrs_temp\"\nversion = \"0.0.0\"\n\n[dependencies]\n").toList
    ++ dependencies ++ ['\n']

/-- The check `Regex::new(r"^fn main\(\)").unwrap().is_match(input)` in
`make_source_code` (line 225): without multiline mode, `^` anchors at the
start of the whole text only. -/
def fnMainStart (input : List Char) : Bool :=
  (stripLit ("fn main()").toList input).isSome

/-- Embedding of `make_source_code` (src/src/main.rs lines 224-240): return
the input unchanged when the anchored entry-point check matches; otherwise
hoist every dependency declaration (each on its own line) above a
synthesized `fn main` wrapping the remaining text. -/
def make_source_code (input : List Char) : List Char :=
  if fnMainStart input then input
  else
    let crate_lines := concatAll ((depMatches input).map (fun m => m ++ ['\n']))
    let body := removeDeps input
    ['\n'] ++ crate_lines ++ ("\nfn main() \x7b\n").toList ++ body ++ ("\n\x7d").toList

/-- The spec's entry-point pattern tested at one line start: optional
whitespace, then the literal `fn main()` (the `\s*fn main\(\)` part of
`(?m)^\s*fn main\(\)`). -/
def entryFromLineStart (s : List Char) : Bool :=
  (stripLit ("fn main()").toList (s.dropWhile rsSpace)).isSome

/-- Tests the entry-point pattern at every line start strictly inside the
text (i.e. right after each newline). -/
def hasEntryAfter : List Char → Bool
  | [] => false
  | c :: rest => (c = '\n' && entryFromLineStart rest) || hasEntryAfter rest

/-- The spec's entry-point signature check `(?m)^\s*fn main\(\)`: some line
of the text, after optional leading whitespace, starts with `fn main()`. -/
def hasEntryLine (s : List Char) : Bool :=
  entryFromLineStart s || hasEntryAfter s

theorem entry_of_fnMainStart {s : List Char} (h : fnMainStart s = true) :
    hasEntryLine s = true := by
  obtain ⟨r, hr⟩ := Option.isSome_iff_exists.mp h
  have hs : s = ("fn main()").toList ++ r := stripLit_eq_some.mp hr
  have hf : ("fn main()").toList ++ r = 'f' :: (("n main()").toList ++ r) := rfl
  have hdrop : s.dropWhile rsSpace = s := by
    rw [hs, hf]
    exact List.dropWhile_cons_of_neg (by decide)
  have : entryFromLineStart s = true := by
    unfold entryFromLineStart
    rw [hdrop, hr]
    rfl
  simp [hasEntryLine, this]

theorem fnMainStart_eq_false {s : List Char} (h : hasEntryLine s = false) :
    fnMainStart s = false := by
  cases hf : fnMainStart s
  · rfl
  · exact absurd h (by simp [entry_of_fnMainStart hf])

/-- `hasSub pat s`: `pat` occurs as a contiguous run somewhere in `s`. -/
def hasSub (pat : List Char) : List Char → Bool
  | [] => (stripLit pat []).isSome
  | c :: cs => (stripLit pat (c :: cs)).isSome || hasSub pat cs

theorem hasSub_here {pat s : List Char} (h : (stripLit pat s).isSome = true) :
    hasSub pat s = true := by
  cases s with
  | nil => exact h
  | cons c cs => simp [hasSub, h]

theorem hasSub_of_append (pat : List Char) :
    ∀ (a b : List Char), hasSub pat (a ++ pat ++ b) = true := by
  intro a
  induction a with
  | nil =>
    intro b
    refine hasSub_here ?_
    rw [List.nil_append, stripLit_append]
    rfl
  | cons x a' ih =>
    intro b
    have h' := ih b
    simp only [List.append_assoc] at h'
    simp [hasSub, List.append_assoc, h']

theorem mem_of_hasSub {pat s : List Char} (h : hasSub pat s = true) :
    ∀ c ∈ pat, c ∈ s := by
  induction s with
  | nil =>
    intro c hc
    simp only [hasSub] at h
    obtain ⟨r, hr⟩ := Option.isSome_iff_exists.mp h
    have := stripLit_eq_some.mp hr
    have : pat = [] := by
      cases pat with
      | nil => rfl
      | cons p ps => simp at this
    subst this
    simp at hc
  | cons x cs ih =>
    intro c hc
    simp only [hasSub, Bool.or_eq_true] at h
    rcases h with h | h
    · obtain ⟨r, hr⟩ := Option.isSome_iff_exists.mp h
      have hx := stripLit_eq_some.mp hr
      rw [hx]
      exact List.mem_append_left r hc
    · exact List.mem_cons_of_mem x (ih h c hc)

/-- Every character of a well-formed dependency-declaration match comes from
the literals or character classes of the regex. -/
theorem matched_chars {d : DepMatch} (h : d.WF) {c : Char} (hc : c ∈ d.matched) :
    c ∈ externLit ∨ c ∈ crateLit ∨ rsSpace c = true ∨ identChar c = true ∨ c = ';' := by
  obtain ⟨-, hs1, -, hs2, -, hn, hs3⟩ := h
  simp only [DepMatch.matched, List.append_assoc, List.mem_append, List.mem_cons,
    List.not_mem_nil, or_false] at hc
  rcases hc with hc | hc | hc | hc | hc | hc | hc
  · exact Or.inl hc
  · exact Or.inr (Or.inr (Or.inl (hs1 c hc)))
  · exact Or.inr (Or.inl hc)
  · exact Or.inr (Or.inr (Or.inl (hs2 c hc)))
  · exact Or.inr (Or.inr (Or.inr (Or.inl (hn c hc))))
  · exact Or.inr (Or.inr (Or.inl (hs3 c hc)))
  · exact Or.inr (Or.inr (Or.inr (Or.inr hc)))

theorem mem_concatAll {c : Char} : ∀ {L : List (List Char)}, c ∈ concatAll L →
    ∃ l ∈ L, c ∈ l := by
  intro L
  induction L with
  | nil => intro h; simp [concatAll] at h
  | cons l ls ih =>
    intro h
    rcases List.mem_append.mp h with h | h
    · exact ⟨l, List.mem_cons_self l ls, h⟩
    · obtain ⟨l', hl', hc⟩ := ih h
      exact ⟨l', List.mem_cons_of_mem l hl', hc⟩

/-- Every whole matched text reported by `captures_iter` comes from a
well-formed match. -/
theorem depMatches_sound {s m : List Char} (h : m ∈ depMatches s) :
    ∃ d : DepMatch, d.WF ∧ d.matched = m := by
  obtain ⟨t, ht, hf⟩ := List.mem_filterMap.mp h
  cases t with
  | inl c => simp [matchedOf] at hf
  | inr d =>
    refine ⟨d, depTokens_sound ht, ?_⟩
    simpa [matchedOf] using hf

/-- The CLI declarations of the clap `App` (src/src/main.rs lines 138-142):
no custom argument or flag is declared; only clap's implicit help and
version switches exist. -/
def cliArgsDeclared : List String := []

/-- The child processes spawned by `main` (lines 185-191): a single
`cargo run` in the temporary project directory.  The produced binary is
never invoked as a separate process. -/
def spawnedCommands : List (String × List String) := [("cargo", ["run"])]

/-- The exit behaviour at the end of `main` (lines 203-206): when the
child's exit status carries a code, `process::exit(code)` is called;
otherwise (e.g. the child was killed by a signal) `main` falls through and
returns normally, so the process exits with 0. -/
def mainExitCode : Option Int → Int
  | some code => code
  | none => 0

/-- The two build-output locations touched by the cache dance: the fixed
cache slot `$TMPDIR/evalrs_cache/target/` and the temporary project's
`target/` directory.  Directory contents are abstracted as a `Nat`; `none`
means the directory is absent and `0` stands for a freshly created empty
directory. -/
structure CacheState where
  cacheSlot : Option Nat
  projTarget : Option Nat
deriving DecidableEq

/-- Pre-build cache restore (lines 175-183): `create_dir_all` the slot —
creating an empty directory when it is absent — then `rename` it onto the
project's `target/`. -/
def setupCache (s : CacheState) : CacheState :=
  { cacheSlot := none,
    projTarget := some (match s.cacheSlot with | some d => d | none => 0) }

/-- The build step (`cargo run`, lines 185-191) rewrites the project's
`target/` directory; its effect on the artefacts is abstracted as an
arbitrary function on directory contents. -/
def runBuild (build : Nat → Nat) (s : CacheState) : CacheState :=
  { s with projTarget := s.projTarget.map build }

/-- Post-build cache save (lines 193-201): `rename` the project's `target/`
back into the cache slot only when the slot is still absent; otherwise the
project's build output is abandoned in place. -/
def saveCache (s : CacheState) : CacheState :=
  match s.cacheSlot with
  | some _ => s
  | none => { cacheSlot := s.projTarget, projTarget := none }

/-- One full invocation of the tool, absent concurrent interference:
pre-build restore, build, post-build save. -/
def evalrsRun (build : Nat → Nat) (s : CacheState) : CacheState :=
  saveCache (runBuild build (setupCache s))

theorem litOf_sublist : ∀ (L : List (Char ⊕ DepMatch)),
    List.Sublist (concatAll (L.map litOf)) (concatAll (L.map tokText)) := by
  intro L
  induction L with
  | nil => simp [concatAll]
  | cons t ts ih =>
    cases t with
    | inl c =>
      simpa [concatAll, litOf, tokText] using List.Sublist.cons₂ c ih
    | inr d =>
      simp only [List.map_cons, concatAll, litOf, tokText, List.nil_append]
      exact ih.trans (List.sublist_append_right d.matched _)

/-- The body left by `replace_all` is the input's non-dependency content,
in the input's order. -/
theorem removeDeps_sublist (s : List Char) : List.Sublist (removeDeps s) s := by
  have h := litOf_sublist (depTokens s)
  rwa [depTokens_tile] at h

theorem length_conserve : ∀ (L : List (Char ⊕ DepMatch)),
    ((L.filterMap matchedOf).map List.length).sum + (concatAll (L.map litOf)).length
      = (concatAll (L.map tokText)).length := by
  intro L
  induction L with
  | nil => simp [concatAll]
  | cons t ts ih =>
    cases t with
    | inl c =>
      simp only [List.map_cons, concatAll, litOf, tokText, List.filterMap_cons,
        matchedOf, List.length_append, List.length_cons] at ih ⊢
      omega
    | inr d =>
      simp only [List.map_cons, concatAll, litOf, tokText, List.filterMap_cons,
        matchedOf, List.length_append, List.nil_append, List.map_cons,
        List.sum_cons] at ih ⊢
      omega

/-- The matched declarations and the `replace_all` body together account for
every character of the input. -/
theorem depMatches_length (s : List Char) :
    ((depMatches s).map List.length).sum + (removeDeps s).length = s.length := by
  have h := length_conserve (depTokens s)
  rw [depTokens_tile] at h
  exact h

theorem filterMap_inl_none {f : Char ⊕ DepMatch → Option (List Char)}
    (hf : ∀ c, f (Sum.inl c) = none) :
    ∀ {l : List Char}, (l.map Sum.inl).filterMap f = [] := by
  intro l
  induction l with
  | nil => simp
  | cons c t ih => simp [List.filterMap_cons, hf, ih]

theorem concatAll_litOf_inl : ∀ {l : List Char},
    concatAll ((l.map Sum.inl).map litOf) = l := by
  intro l
  induction l with
  | nil => simp [concatAll]
  | cons c t ih =>
    simp only [List.map_cons, concatAll, litOf]
    rw [ih]
    simp

theorem caps_matches_length : ∀ (L : List (Char ⊕ DepMatch)),
    (L.filterMap capOf).length = (L.filterMap matchedOf).length := by
  intro L
  induction L with
  | nil => simp
  | cons t ts ih =>
    cases t with
    | inl c => simpa [List.filterMap_cons, capOf, matchedOf] using ih
    | inr d => simpa [List.filterMap_cons, capOf, matchedOf] using ih

theorem concatAll_append : ∀ (a b : List (List Char)),
    concatAll (a ++ b) = concatAll a ++ concatAll b := by
  intro a b
  induction a with
  | nil => simp [concatAll]
  | cons l ls ih => simp [concatAll, ih, List.append_assoc]

theorem hasSub_append_left {pat t : List Char} (h : hasSub pat t = true) :
    ∀ (s : List Char), hasSub pat (s ++ t) = true := by
  intro s
  induction s with
  | nil => simpa using h
  | cons c s' ih => simp [hasSub, ih]

theorem hasSub_append_right {pat : List Char} :
    ∀ {s : List Char}, hasSub pat s = true → ∀ (t : List Char), hasSub pat (s ++ t) = true := by
  intro s
  induction s with
  | nil =>
    intro h t
    obtain ⟨r, hr⟩ := Option.isSome_iff_exists.mp h
    have hp : pat = [] := by
      have := stripLit_eq_some.mp hr
      cases pat with
      | nil => rfl
      | cons p ps => simp at this
    subst hp
    exact hasSub_here rfl
  | cons c cs ih =>
    intro h t
    simp only [hasSub, Bool.or_eq_true] at h
    rcases h with h | h
    · obtain ⟨r, hr⟩ := Option.isSome_iff_exists.mp h
      have hx := stripLit_eq_some.mp hr
      refine hasSub_here ?_
      have hxt : (c :: cs) ++ t = pat ++ (r ++ t) := by rw [hx, List.append_assoc]
      rw [hxt, stripLit_append]
      rfl
    · have := ih h t
      simp [hasSub, this]

/-- C1: the spec (and the crate's own doc, lines 56-58) promise that a
snippet containing an entry-point line anywhere is returned unmodified, but
the code's check `^fn main\(\)` is not in multiline mode and so anchors at
the start of the whole text only.  At the failing input
`"let x = 1;\nfn main() {\n}"` the snippet has a line starting exactly with
`fn main()` (so the spec pattern matches), yet `make_source_code` wraps it in
a second synthesized `fn main` instead of returning it unmodified. -/
theorem entry_check_misses_interior_line :
    hasEntryLine (("let x = 1;\nfn main() \x7b\n\x7d").toList) = true ∧
    make_source_code (("let x = 1;\nfn main() \x7b\n\x7d").toList)
      ≠ ("let x = 1;\nfn main() \x7b\n\x7d").toList ∧
    make_source_code (("let x = 1;\nfn main() \x7b\n\x7d").toList)
      = ("\n\nfn main() \x7b\nlet x = 1;\nfn main() \x7b\n\x7d\n\x7d").toList :=
  ⟨by decide, by decide, by decide⟩

/-- C2 counterexample: `make_manifest` never reads a trailing specifier
comment.  For the claimed example input `extern crate foo; // foo = "1.2"`
the emitted manifest line is the wildcard `foo = "*"`, not `foo = "1.2"`. -/
theorem manifest_ignores_specifier_comment :
    make_manifest (("extern crate foo; // foo = \"1.2\"").toList)
      = ("\n[package]\nname = \"evalrs_temp\"\nversion = \"0.0.0\"\n\n[dependencies]\nfoo = \"*\"\n\n").toList
    ∧ hasSub (("foo = \"1.2\"").toList)
        (make_manifest (("extern crate foo; // foo = \"1.2\"").toList)) = false :=
  ⟨by decide, by decide⟩

/-- C2 amended: for every dependency-declaration match, `make_manifest`
emits the wildcard line `name = "*"`, regardless of any trailing comment; in
particular for `extern crate foo; // foo = "1.2"` the manifest line is
`foo = "*"`. -/
theorem manifest_line_always_wildcard {input nm : List Char} (h : nm ∈ depCaps input) :
    hasSub (nm ++ (" = \"*\"\n").toList) (make_manifest input) = true := by
  obtain ⟨l1, l2, hsplit⟩ := List.append_of_mem h
  have hdeps : concatAll ((depCaps input).map (fun x => x ++ (" = \"*\"\n").toList))
      = concatAll (l1.map (fun x => x ++ (" = \"*\"\n").toList))
        ++ ((nm ++ (" = \"*\"\n").toList)
          ++ concatAll (l2.map (fun x => x ++ (" = \"*\"\n").toList))) := by
    rw [hsplit, List.map_append, concatAll_append, List.map_cons]
    simp [concatAll]
  simp only [make_manifest]
  rw [hdeps]
  exact hasSub_append_right
    (hasSub_append_left
      (hasSub_append_left (hasSub_here (by rw [stripLit_append]; rfl)) _) _) _

theorem manifest_line_always_wildcard_witness :
    ("foo").toList ∈ depCaps (("extern crate foo; // foo = \"1.2\"").toList) ∧
    hasSub ((("foo").toList) ++ (" = \"*\"\n").toList)
      (make_manifest (("extern crate foo; // foo = \"1.2\"").toList)) = true :=
  ⟨by decide, manifest_line_always_wildcard (by decide)⟩

/-- C4 counterexample: when the child terminates without a retrievable exit
code (`exit_status.code()` is `None`, e.g. after a signal), `main` falls
through (lines 203-206) and the process exits 0 — not the claimed fixed
fallback code 1, and with no diagnostic. -/
theorem signal_exit_is_zero : mainExitCode none = 0 ∧ mainExitCode none ≠ 1 :=
  ⟨rfl, by decide⟩

/-- C4 amended: whenever the child's exit code is observable the tool exits
with exactly that code; when it is not, the tool silently exits 0 (normal
return from `main`), not with a fallback code 1, and prints nothing. -/
theorem exit_code_propagation :
    (∀ code : Int, mainExitCode (some code) = code) ∧ mainExitCode none = 0 :=
  ⟨fun _ => rfl, rfl⟩

/-- C5: cache-slot invariant and round trip.  The slot (typed `Option`, so
holding at most one build-output directory) is empty during every build;
`saveCache` refills it only when it is still empty; a run starting from an
empty slot ends with the slot populated by the build of a fresh empty
directory, the project's copy moved away; and a second run reuses the
populated slot as its starting build directory and repopulates it. -/
theorem cache_slot_roundtrip (build build2 : Nat → Nat) (s0 : CacheState) :
    (setupCache s0).cacheSlot = none
    ∧ (∀ t : CacheState, t.cacheSlot.isSome = true → saveCache t = t)
    ∧ (s0.cacheSlot = none →
        (evalrsRun build s0).cacheSlot = some (build 0)
        ∧ (evalrsRun build s0).projTarget = none
        ∧ (setupCache (evalrsRun build s0)).projTarget = some (build 0)
        ∧ (evalrsRun build2 (evalrsRun build s0)).cacheSlot = some (build2 (build 0))) := by
  refine ⟨rfl, ?_, ?_⟩
  · intro t ht
    obtain ⟨d, hd⟩ := Option.isSome_iff_exists.mp ht
    simp [saveCache, hd]
  · intro h0
    refine ⟨?_, ?_, ?_, ?_⟩ <;>
      simp [evalrsRun, setupCache, runBuild, saveCache, h0]

theorem cache_slot_roundtrip_witness :
    ((⟨none, none⟩ : CacheState).cacheSlot = none)
    ∧ (evalrsRun Nat.succ (⟨none, none⟩ : CacheState)).cacheSlot = some (Nat.succ 0)
    ∧ saveCache (⟨some 5, some 7⟩ : CacheState) = (⟨some 5, some 7⟩ : CacheState) :=
  ⟨rfl, ((cache_slot_roundtrip Nat.succ Nat.succ ⟨none, none⟩).2.2 rfl).1,
    (cache_slot_roundtrip Nat.succ Nat.succ ⟨none, none⟩).2.1 ⟨some 5, some 7⟩ rfl⟩

/-- C8 counterexample: the driver spawns exactly one child process, `cargo`
with argument `run` (lines 185-191).  There is no separate build step
followed by a direct invocation of the produced executable at a
profile-dependent path — every spawned program is `cargo`. -/
theorem single_child_process :
    spawnedCommands.length = 1 ∧ ∀ p ∈ spawnedCommands, p.1 = "cargo" := by
  refine ⟨rfl, ?_⟩
  intro p hp
  simp only [spawnedCommands, List.mem_singleton] at hp
  rw [hp]

/-- C8 amended: build and execution happen through the single child
`cargo run` (which itself builds and then runs the binary), and the tool
propagates that one child's exit code whenever it is observable. -/
theorem cargo_run_drives_build_and_exec :
    spawnedCommands = [("cargo", ["run"])]
    ∧ (∀ code : Int, mainExitCode (some code) = code) :=
  ⟨rfl, fun _ => rfl⟩

/-- C10: the generated manifest always begins with the fixed `[package]`
header declaring name `evalrs_temp` and version `0.0.0`; only the dependency
block under `[dependencies]` (one wildcard line per capture) varies with the
input. -/
theorem manifest_fixed_header (input : List Char) :
    ∃ deps : List Char,
      make_manifest input
        = ("\n[package]\nname = \"evalrs_temp\"\nversion = \"0.0.0\"\n\n[dependencies]\n").toList
          ++ deps ++ ['\n']
      ∧ deps = concatAll ((depCaps input).map (fun nm => nm ++ (" = \"*\"\n").toList)) :=
  ⟨_, rfl, rfl⟩

/-- C3: for every input without the spec's entry-point signature, the output
of `make_source_code` is zero or more hoisted dependency-declaration lines —
each a complete dependency declaration, matched in full — followed by
exactly one synthesized entry-point function wrapping the body; the body is
the input's non-dependency content in the input's order (a sublist of the
input), and together with the hoisted declarations it accounts for every
character of the input. -/
theorem wrap_structure {input : List Char} (h : hasEntryLine input = false) :
    make_source_code input
      = ['\n'] ++ concatAll ((depMatches input).map (fun m => m ++ ['\n']))
        ++ ("\nfn main() \x7b\n").toList ++ removeDeps input ++ ("\n\x7d").toList
    ∧ (∀ m ∈ depMatches input,
        (matchExternCrateAt m).map (fun d => (d.matched, d.rest)) = some (m, []))
    ∧ List.Sublist (removeDeps input) input
    ∧ ((depMatches input).map List.length).sum + (removeDeps input).length
        = input.length := by
  refine ⟨?_, ?_, removeDeps_sublist input, depMatches_length input⟩
  · simp [make_source_code, fnMainStart_eq_false h]
  · intro m hm
    obtain ⟨d, hwf, rfl⟩ := depMatches_sound hm
    rw [matchAt_matched hwf]
    rfl

theorem wrap_structure_witness :
    hasEntryLine (("extern crate foo; foo::go();").toList) = false
    ∧ (make_source_code (("extern crate foo; foo::go();").toList)
        = ['\n'] ++ concatAll ((depMatches (("extern crate foo; foo::go();").toList)).map
            (fun m => m ++ ['\n']))
          ++ ("\nfn main() \x7b\n").toList
          ++ removeDeps (("extern crate foo; foo::go();").toList) ++ ("\n\x7d").toList
      ∧ (∀ m ∈ depMatches (("extern crate foo; foo::go();").toList),
          (matchExternCrateAt m).map (fun d => (d.matched, d.rest)) = some (m, []))
      ∧ List.Sublist (removeDeps (("extern crate foo; foo::go();").toList))
          (("extern crate foo; foo::go();").toList)
      ∧ ((depMatches (("extern crate foo; foo::go();").toList)).map List.length).sum
          + (removeDeps (("extern crate foo; foo::go();").toList)).length
          = (("extern crate foo; foo::go();").toList).length) :=
  ⟨by decide, wrap_structure (by decide)⟩

/-- C6 counterexample: `make_source_code` does not strip a leading `# `
literate marker — the marker survives verbatim in the wrapped body, so the
output differs from what stripping would produce. -/
theorem literate_marker_not_stripped :
    make_source_code (("# let a = 1;").toList)
      = ("\n\nfn main() \x7b\n# let a = 1;\n\x7d").toList
    ∧ make_source_code (("# let a = 1;").toList)
      ≠ ("\n\nfn main() \x7b\nlet a = 1;\n\x7d").toList :=
  ⟨by decide, by decide⟩

/-- C6 amended: the snippet wrapper performs no literate-marker stripping:
a line beginning with `# ` is carried verbatim (marker included) into the
wrapped body.  Stated for any input `"# " ++ rest` whose tail contains no
dependency declaration. -/
theorem literate_marker_preserved {rest : List Char}
    (h : depTokens rest = rest.map Sum.inl) :
    make_source_code ('#' :: ' ' :: rest)
      = ("\n\nfn main() \x7b\n# ").toList ++ rest ++ ("\n\x7d").toList := by
  have h1 : matchExternCrateAt ('#' :: (' ' :: rest)) = none := rfl
  have h2 : matchExternCrateAt (' ' :: rest) = none := rfl
  have ht : depTokens ('#' :: ' ' :: rest)
      = Sum.inl '#' :: Sum.inl ' ' :: rest.map Sum.inl := by
    rw [depTokens_cons_nomatch h1, depTokens_cons_nomatch h2, h]
  have hf : fnMainStart ('#' :: ' ' :: rest) = false := rfl
  have hdm : depMatches ('#' :: ' ' :: rest) = [] := by
    unfold depMatches
    rw [ht]
    simp only [List.filterMap_cons, matchedOf]
    exact filterMap_inl_none (f := matchedOf) (fun c => rfl)
  have hrd : removeDeps ('#' :: ' ' :: rest) = '#' :: ' ' :: rest := by
    unfold removeDeps
    rw [ht]
    simp only [List.map_cons, concatAll, litOf]
    rw [concatAll_litOf_inl]
    rfl
  simp only [make_source_code, hf, Bool.false_eq_true, if_false, hdm, hrd,
    List.map_nil, concatAll]
  rfl

theorem literate_marker_preserved_witness :
    depTokens (("let a = 1;").toList) = (("let a = 1;").toList).map Sum.inl
    ∧ make_source_code ('#' :: ' ' :: ("let a = 1;").toList)
      = ("\n\nfn main() \x7b\n# ").toList ++ ("let a = 1;").toList ++ ("\n\x7d").toList :=
  ⟨by decide, literate_marker_preserved (by decide)⟩

/-- C7 counterexample: the clap `App` declares no custom flag at all (so no
print-injection flag exists), and the wrapped output of the expression
`1 + 1` contains no debug-format print: no `{:?}` appears, and the body is
emitted bare inside the synthesized entry point. -/
theorem no_print_flag :
    cliArgsDeclared = []
    ∧ hasSub (("\x7b:?\x7d").toList) (make_source_code (("1 + 1").toList)) = false
    ∧ make_source_code (("1 + 1").toList) = ("\n\nfn main() \x7b\n1 + 1\n\x7d").toList :=
  ⟨rfl, by decide, by decide⟩

/-- C7 amended: no print-injection flag exists (the CLI declares no custom
arguments), and `make_source_code` never wraps the body in a debug print:
whenever the snippet is wrapped, the body is placed verbatim between a
prefix containing no `println!` and the closing brace. -/
theorem no_print_injection :
    cliArgsDeclared = []
    ∧ ∀ input : List Char, fnMainStart input = false →
        ∃ pre : List Char,
          make_source_code input = pre ++ removeDeps input ++ ("\n\x7d").toList
          ∧ hasSub (("println!").toList) pre = false := by
  refine ⟨rfl, ?_⟩
  intro input hf
  refine ⟨['\n'] ++ concatAll ((depMatches input).map (fun m => m ++ ['\n']))
      ++ ("\nfn main() \x7b\n").toList, ?_, ?_⟩
  · simp [make_source_code, hf, List.append_assoc]
  · cases hX : hasSub (("println!").toList)
        (['\n'] ++ concatAll ((depMatches input).map (fun m => m ++ ['\n']))
          ++ ("\nfn main() \x7b\n").toList) with
    | false => rfl
    | true =>
      exfalso
      have hmem : '!' ∈ ['\n'] ++ concatAll ((depMatches input).map (fun m => m ++ ['\n']))
          ++ ("\nfn main() \x7b\n").toList := mem_of_hasSub hX '!' (by decide)
      rcases List.mem_append.mp hmem with hm1 | hm2
      · rcases List.mem_append.mp hm1 with ha | hb
        · exact absurd ha (by decide)
        · obtain ⟨l, hl, hcl⟩ := mem_concatAll hb
          obtain ⟨m, hm, rfl⟩ := List.mem_map.mp hl
          rcases List.mem_append.mp hcl with hm' | hnl
          · obtain ⟨d, hwf, rfl⟩ := depMatches_sound hm
            rcases matched_chars hwf hm' with hx | hx | hx | hx | hx <;>
              revert hx <;> decide
          · exact absurd hnl (by decide)
      · exact absurd hm2 (by decide)

theorem no_print_injection_witness :
    cliArgsDeclared = []
    ∧ fnMainStart (("2").toList) = false
    ∧ ∃ pre : List Char,
        make_source_code (("2").toList)
          = pre ++ removeDeps (("2").toList) ++ ("\n\x7d").toList
        ∧ hasSub (("println!").toList) pre = false :=
  ⟨no_print_injection.1, by decide, no_print_injection.2 (("2").toList) (by decide)⟩

/-- C9: dependency extraction is order-preserving and emits exactly one
manifest line per declaration match: the manifest's dependency block is the
map of the capture list in match order, the capture list has one entry per
match, the matches tile the input in extraction order, and duplicate names
are preserved (the repeated `a` below yields two lines).  Extraction is a
pure function of the text, so a second run yields the same list. -/
theorem dep_extraction_order :
    (∀ input : List Char,
      make_manifest input
        = ("\n[package]\nname = \"evalrs_temp\"\nversion = \"0.0.0\"\n\n[dependencies]\n").toList
          ++ concatAll ((depCaps input).map (fun nm => nm ++ (" = \"*\"\n").toList))
          ++ ['\n'])
    ∧ (∀ input : List Char, (depCaps input).length = (depMatches input).length)
    ∧ (∀ input : List Char, concatAll ((depTokens input).map tokText) = input)
    ∧ depCaps (("extern crate a; extern crate b; extern crate a;").toList)
      = [['a'], ['b'], ['a']] := by
  refine ⟨fun _ => rfl, ?_, depTokens_tile, by decide⟩
  intro input
  exact caps_matches_length (depTokens input)

end Evalrs
